import Mathlib

/-!
Shallow embedding of the SpendLite categorization core (src/script.js).

Strings are modelled through their character lists; JS numbers are modelled
as exact rationals (ℚ), so every modelled numeric value is finite and NaN is
represented by `none` in `Option ℚ` where the source can produce it.  Case
mapping is modelled on the ASCII range (the inputs of the source's regex
classes `[A-Za-z0-9&._]`, `\d`, `\s`).
-/

set_option maxRecDepth 8000

namespace Spendlite

/-! ### Character classes used by the source's regexes -/

/-- Whitespace as matched by the `\s` regex class / `String.trim` (ASCII part). -/
def isWsC (c : Char) : Bool :=
  c = ' ' || c = '\t' || c = '\n' || c = '\r' || c = '\x0b' || c = '\x0c'

/-- The `\d` regex class. -/
def isDigitC (c : Char) : Bool := '0' ≤ c && c ≤ '9'

/-- The word-character class `[A-Za-z0-9&._]` of `matchesKeyword` (script.js:405). -/
def wordChar (c : Char) : Bool :=
  ('A' ≤ c && c ≤ 'Z') || ('a' ≤ c && c ≤ 'z') || ('0' ≤ c && c ≤ '9') ||
  c = '&' || c = '.' || c = '_'

/-- ASCII `toLowerCase` on one character. -/
def asciiLowerC (c : Char) : Char :=
  if 'A' ≤ c && c ≤ 'Z' then Char.ofNat (c.toNat + 32) else c

/-- ASCII `toUpperCase` on one character. -/
def asciiUpperC (c : Char) : Char :=
  if 'a' ≤ c && c ≤ 'z' then Char.ofNat (c.toNat - 32) else c

def asciiLowerL (l : List Char) : List Char := l.map asciiLowerC

def asciiUpperL (l : List Char) : List Char := l.map asciiUpperC

/-- JS `s.toLowerCase()`. -/
def asciiLowerS (s : String) : String := ⟨asciiLowerL s.data⟩

/-- JS `s.toUpperCase()`. -/
def asciiUpperS (s : String) : String := ⟨asciiUpperL s.data⟩

/-- Drop trailing whitespace (right half of `String.trim`). -/
def dropT (l : List Char) : List Char := (l.reverse.dropWhile isWsC).reverse

/-- JS `String.trim()` on a character list. -/
def trimL (l : List Char) : List Char := dropT (l.dropWhile isWsC)

/-- JS `String.trim()`. -/
def trimS (s : String) : String := ⟨trimL s.data⟩

/-- Leading run of decimal digits, and the rest. -/
def takeDigits : List Char → List Char × List Char
  | [] => ([], [])
  | c :: cs =>
    if isDigitC c then
      let p := takeDigits cs
      (c :: p.1, p.2)
    else ([], c :: cs)

/-- Numeric value of a digit string. -/
def digitsToNat (l : List Char) : Nat :=
  l.foldl (fun a c => a * 10 + (c.toNat - 48)) 0

/-! ### Amount/Text Normalizer: `parseAmount` (script.js:132-141)

`parseAmount` first removes every character that is not a digit, `-`, `,`
or `.`, then removes the commas, and converts with `Number(s) || 0`. -/

/-- The two `replace` calls of `parseAmount` (script.js:137). -/
def cleanAmount (l : List Char) : List Char :=
  (l.filter fun c => isDigitC c || c = '-' || c = ',' || c = '.').filter
    fun c => !(c = ',')

/-- Unsigned decimal literal `digits [. digits]` with at least one digit and
nothing else; `none` models NaN.  The value `ip.frac` is the rational
`(ip * 10 ^ k + frac) / 10 ^ k` where `k` is the number of fraction
digits. -/
def parseUnsignedDec (l : List Char) : Option ℚ :=
  let p := takeDigits l
  match p.2 with
  | [] => if p.1 = [] then none else some (mkRat (digitsToNat p.1) 1)
  | '.' :: r2 =>
    let q := takeDigits r2
    if q.2 = [] && !(p.1 = [] && q.1 = []) then
      some (mkRat (digitsToNat p.1 * 10 ^ q.1.length + digitsToNat q.1) (10 ^ q.1.length))
    else none
  | _ => none

/-- The exact decimal value of JS `Number(s)` on a string drawn from the
alphabet `{digits, '-', '.'}` (the only characters `cleanAmount` can
leave): empty string is 0, otherwise an optional leading minus sign
followed by an unsigned decimal literal; `none` models NaN.  This is the
pre-rounding value: binary64 overflow to an infinity is layered on top by
`jsNumberJs`. -/
def jsNumber : List Char → Option ℚ
  | [] => some 0
  | '-' :: rest => (parseUnsignedDec rest).map fun q => -q
  | l => parseUnsignedDec l

/-- A JS number value: NaN, an infinity, or a finite value.  Finite values
are kept exact (binary64 rounding of in-range magnitudes is not observed by
any claim below). -/
inductive JsNum where
  | nan : JsNum
  | posInf : JsNum
  | negInf : JsNum
  | finite : ℚ → JsNum
deriving DecidableEq

/-- The binary64 overflow boundary `2 ^ 1024 - 2 ^ 970`: ECMAScript
ToNumber rounds a decimal literal to binary64 with ties-to-even, and a
magnitude reaching this boundary (about 1.798e308, so any 309-or-more
digit integer part) rounds past the largest finite double and yields an
infinity. -/
def binary64Overflow : ℚ := mkRat ((2 ^ 1024 - 2 ^ 970 : Nat) : Int) 1

/-- Does this decimal value convert to an infinity in binary64? -/
def jsOverflows (q : ℚ) : Bool := binary64Overflow ≤ |q|

/-- JS `Number(s)` on a cleaned amount string, including the non-finite
results: NaN for a malformed literal, an infinity when the decimal value
overflows binary64, and the (exact) value otherwise. -/
def jsNumberJs (l : List Char) : JsNum :=
  match jsNumber l with
  | none => JsNum.nan
  | some q =>
    if jsOverflows q then (if q < 0 then JsNum.negInf else JsNum.posInf) else JsNum.finite q

/-- `parseAmount` (script.js:132-141) on the full JS number domain:
`Number(s) || 0` maps the falsy NaN and 0 to 0 but passes the truthy
infinities through, so an overflowing amount string yields a non-finite
result. -/
def parseAmountJs (s : String) : JsNum :=
  match jsNumberJs (cleanAmount s.data) with
  | JsNum.nan => JsNum.finite 0
  | JsNum.posInf => JsNum.posInf
  | JsNum.negInf => JsNum.negInf
  | JsNum.finite q => if q = 0 then JsNum.finite 0 else JsNum.finite q

/-- `parseAmount` (script.js:132-141) restricted to the finite range (the
form the importer claims use; `parseAmountJs` above is the same function on
the full JS number domain).  `Number(s) || 0` maps NaN (and 0 itself) to 0.
A `null`/`undefined` argument also returns 0 in the source; the model takes
the string itself. -/
def parseAmount (s : String) : ℚ :=
  match jsNumber (cleanAmount s.data) with
  | none => 0
  | some q => if q = 0 then 0 else q

/-! ### Smart Date Parser (script.js:168-215)

`parseDateSmart` builds JS `Date` objects; the model keeps the calendar
fields after the `Date` constructor's field normalization (month overflow
rolls into the year, day overflow rolls into adjacent months, and a year
argument 0..99 means 1900+year). -/

structure CalDate where
  year : Int
  month : Int
  day : Int
deriving DecidableEq

/-- Days since 1970-01-01 of a civil date (proleptic Gregorian). -/
def daysFromCivil (y m d : Int) : Int :=
  let y2 := y - (if m ≤ 2 then 1 else 0)
  let era := Int.fdiv y2 400
  let yoe := y2 - era * 400
  let mp := if 2 < m then m - 3 else m + 9
  let doy := Int.fdiv (153 * mp + 2) 5 + d - 1
  let doe := yoe * 365 + Int.fdiv yoe 4 - Int.fdiv yoe 100 + doy
  era * 146097 + doe - 719468

/-- Civil date of a count of days since 1970-01-01 (proleptic Gregorian). -/
def civilFromDays (z0 : Int) : CalDate :=
  let z := z0 + 719468
  let era := Int.fdiv z 146097
  let doe := z - era * 146097
  let yoe :=
    Int.fdiv (doe - Int.fdiv doe 1460 + Int.fdiv doe 36524 - Int.fdiv doe 146096) 365
  let y := yoe + era * 400
  let doy := doe - (365 * yoe + Int.fdiv yoe 4 - Int.fdiv yoe 100)
  let mp := Int.fdiv (5 * doy + 2) 153
  let d := doy - Int.fdiv (153 * mp + 2) 5 + 1
  let m := mp + (if mp < 10 then 3 else -9)
  ⟨y + (if m ≤ 2 then 1 else 0), m, d⟩

/-- JS `new Date(year, monthIndex, day)` (date fields only): years 0..99 map
to 1900..1999, out-of-range month indices roll into the year, out-of-range
days roll into adjacent months. -/
def jsMakeDate (year mIdx day : Int) : CalDate :=
  let y := if 0 ≤ year && year ≤ 99 then year + 1900 else year
  let months := y * 12 + mIdx
  let yy := Int.fdiv months 12
  let mm := Int.fmod months 12 + 1
  civilFromDays (daysFromCivil yy mm 1 + (day - 1))

/-- Separator class `[slash-dash]` of the two numeric date patterns. -/
def isSep (c : Char) : Bool := c = '/' || c = '-'

/-- Pattern 1 of `parseDateSmart` (script.js:174):
`^(\d{4})[slash-dash](\d{1,2})[slash-dash](\d{1,2})$`, then `new Date(+y, +m-1, +d)`. -/
def pat1 (l : List Char) : Option CalDate :=
  let p1 := takeDigits l
  if p1.1.length = 4 then
    match p1.2 with
    | c1 :: r2 =>
      if isSep c1 then
        let p2 := takeDigits r2
        if 1 ≤ p2.1.length && p2.1.length ≤ 2 then
          match p2.2 with
          | c2 :: r4 =>
            if isSep c2 then
              let p3 := takeDigits r4
              if (1 ≤ p3.1.length && p3.1.length ≤ 2) && p3.2 = [] then
                some (jsMakeDate (digitsToNat p1.1) ((digitsToNat p2.1 : Int) - 1)
                  (digitsToNat p3.1))
              else none
            else none
          | [] => none
        else none
      else none
    | [] => none
  else none

/-- Pattern 2 of `parseDateSmart` (script.js:182):
`^(\d{1,2})[slash-dash](\d{1,2})[slash-dash](\d{4})$`, then `new Date(+y, +m-1, +d)` with
day first (Australian order). -/
def pat2 (l : List Char) : Option CalDate :=
  let p1 := takeDigits l
  if 1 ≤ p1.1.length && p1.1.length ≤ 2 then
    match p1.2 with
    | c1 :: r2 =>
      if isSep c1 then
        let p2 := takeDigits r2
        if 1 ≤ p2.1.length && p2.1.length ≤ 2 then
          match p2.2 with
          | c2 :: r4 =>
            if isSep c2 then
              let p3 := takeDigits r4
              if p3.1.length = 4 && p3.2 = [] then
                some (jsMakeDate (digitsToNat p3.1) ((digitsToNat p2.1 : Int) - 1)
                  (digitsToNat p1.1))
              else none
            else none
          | [] => none
        else none
      else none
    | [] => none
  else none

/-- Strip a leading time-of-day `^\d{1,2}:\d{2}\s*(am|pm)\s*` (case
insensitive), as in `str.replace(...)` at script.js:190; on no match the
input is returned unchanged. -/
def stripTime (l : List Char) : List Char :=
  let p1 := takeDigits l
  if 1 ≤ p1.1.length && p1.1.length ≤ 2 then
    match p1.2 with
    | ':' :: r2 =>
      let p2 := takeDigits r2
      if p2.1.length = 2 then
        let r3 := p2.2.dropWhile isWsC
        match r3 with
        | a :: m :: r4 =>
          if (asciiLowerC a = 'a' || asciiLowerC a = 'p') && asciiLowerC m = 'm' then
            r4.dropWhile isWsC
          else l
        | _ => l
      else l
    | _ => l
  else l

/-- Case-insensitive literal prefix test. -/
def ciStartsWith : List Char → List Char → Bool
  | [], _ => true
  | _ :: _, [] => false
  | p :: ps, c :: cs => asciiLowerC c = p && ciStartsWith ps cs

/-- The twelve month names of `monthMap` (script.js:201-205) with their
0-based indices, in the order of the regex alternation. -/
def monthNames : List (List Char × Int) :=
  [("january".data, 0), ("february".data, 1), ("march".data, 2), ("april".data, 3),
   ("may".data, 4), ("june".data, 5), ("july".data, 6), ("august".data, 7),
   ("september".data, 8), ("october".data, 9), ("november".data, 10),
   ("december".data, 11)]

/-- Match one of the month names (case-insensitively) as a prefix, returning
its 0-based index and the rest of the input. -/
def monthLookup (l : List Char) : Option (Int × List Char) :=
  (monthNames.find? fun p => ciStartsWith p.1 l).map fun p => (p.2, l.drop p.1.length)

/-- The weekday alternation `(?:Mon|Tue|Wed|Thu|Fri|Sat|Sun)?` (case
insensitive): if a weekday name is a prefix, the rest of the input. -/
def weekdayRest (l : List Char) : Option (List Char) :=
  if ["mon".data, "tue".data, "wed".data, "thu".data, "fri".data, "sat".data,
      "sun".data].any (fun w => ciStartsWith w l) then
    some (l.drop 3)
  else none

/-- Body of pattern 3 after the optional weekday:
`\s*(\d{1,2})\s+(MonthName),?\s+(\d{4})` with no end anchor, then
`new Date(y, monthMap[name], day)`. -/
def pat3Body (l : List Char) : Option CalDate :=
  let l1 := l.dropWhile isWsC
  let p1 := takeDigits l1
  if 1 ≤ p1.1.length && p1.1.length ≤ 2 then
    match p1.2 with
    | c :: r1 =>
      if isWsC c then
        let r2 := (c :: r1).dropWhile isWsC
        match monthLookup r2 with
        | some mi =>
          let r4 := match mi.2 with
            | ',' :: t => t
            | t => t
          match r4 with
          | c2 :: _ =>
            if isWsC c2 then
              let r5 := r4.dropWhile isWsC
              let p3 := takeDigits r5
              if 4 ≤ p3.1.length then
                some (jsMakeDate (digitsToNat (p3.1.take 4)) mi.1 (digitsToNat p1.1))
              else none
            else none
          | [] => none
        | none => none
      else none
    | [] => none
  else none

/-- Pattern 3 of `parseDateSmart` (script.js:193): optional weekday prefix
(tried first, with regex backtracking to the empty alternative). -/
def pat3 (l : List Char) : Option CalDate :=
  match weekdayRest l with
  | some rest =>
    match pat3Body rest with
    | some d => some d
    | none => pat3Body l
  | none => pat3Body l

/-- `parseDateSmart` (script.js:168-215): trims, tries the ISO pattern, the
day/month/year pattern, then the prose pattern on the time-stripped string;
`none` when none of the three patterns matches (no generic fallback). -/
def parseDateSmart (s : String) : Option CalDate :=
  if s = "" then none
  else
    let str := trimL s.data
    match pat1 str with
    | some d => some d
    | none =>
      match pat2 str with
      | some d => some d
      | none => pat3 (stripTime str)

/-! ### Rule Engine: keyword matching (script.js:393-419)

`matchesKeyword` splits the keyword on `\s+`, drops empty tokens, and
requires every token to occur in the lower-cased description bounded on
both sides by a character outside `[A-Za-z0-9&._]` or a string edge
(regex `(?:^|D)tok(?:D|$)` with `D = [^A-Za-z0-9&._]`). -/

/-- Split on `\s+` keeping only the nonempty chunks, as
`split(/\s+/).filter(Boolean)`. -/
def splitWsAux : List Char → List Char → List (List Char)
  | acc, [] => if acc = [] then [] else [acc.reverse]
  | acc, c :: cs =>
    if isWsC c then
      if acc = [] then splitWsAux [] cs else acc.reverse :: splitWsAux [] cs
    else splitWsAux (c :: acc) cs

def splitWs (l : List Char) : List (List Char) := splitWsAux [] l

/-- Does `tok` occur at the head of `u`, with the character after it (if
any) outside the word class?  This is the `tok(?:D|$)` part of the matcher
regex at one candidate position. -/
def tokHeadBounded : List Char → List Char → Bool
  | [], [] => true
  | [], c :: _ => !wordChar c
  | _ :: _, [] => false
  | t :: ts, c :: cs => t == c && tokHeadBounded ts cs

/-- Does `tok` occur somewhere in `text` with a word boundary on both
sides?  `bb` says whether the position before the current suffix is a
boundary (string start or a non-word character). -/
def tokenAppears (tok : List Char) : Bool → List Char → Bool
  | bb, [] => bb && tokHeadBounded tok []
  | bb, c :: cs => (bb && tokHeadBounded tok (c :: cs)) || tokenAppears tok (!wordChar c) cs

/-- `matchesKeyword(descLower, keywordLower)` (script.js:393-419). -/
def matchesKeyword (descLower keywordLower : String) : Bool :=
  if keywordLower = "" then false
  else
    let text := asciiLowerL descLower.data
    let tokens := splitWs (asciiLowerL keywordLower.data)
    if tokens = [] then false
    else tokens.all fun tok => tokenAppears tok true text

/-! ### Declarative matcher semantics (the regex read as a predicate) -/

/-- The position after `pre` is a left word boundary: string start or a
preceding non-word character. -/
def boundaryBeforeP (pre : List Char) : Prop :=
  pre = [] ∨ ∃ c, pre.getLast? = some c ∧ wordChar c = false

/-- The position before `post` is a right word boundary: string end or a
following non-word character. -/
def boundaryAfterP (post : List Char) : Prop :=
  post = [] ∨ ∃ c cs, post = c :: cs ∧ wordChar c = false

/-- `tok` occurs in `text` bounded by non-word characters or string edges
on both sides — the declarative reading of `(?:^|D)tok(?:D|$)`. -/
def occursBounded (text tok : List Char) : Prop :=
  ∃ pre post, text = pre ++ tok ++ post ∧ boundaryBeforeP pre ∧ boundaryAfterP post

/-! ### Rule Engine: categorisation (script.js:427-451) -/

structure Rule where
  keyword : String
  category : String
deriving DecidableEq

structure Txn where
  date : String
  amount : ℚ
  description : String
  category : String
deriving DecidableEq

/-- The first-match-wins scan of `categorise` (script.js:434-440). -/
def firstMatch (rules : List Rule) (descLower : String) : Option String :=
  match rules with
  | [] => none
  | r :: rs => if matchesKeyword descLower r.keyword then some r.category else firstMatch rs descLower

/-- The override step of `categorise` (script.js:444-446): a truthy matched
category that upper-cases to `PETROL` with `amount <= 2` (the absolute
amount, computed at script.js:431) becomes `COFFEE`. -/
def applyOverride (amt : ℚ) : Option String → Option String
  | none => none
  | some c =>
    if c ≠ "" ∧ asciiUpperS c = "PETROL" ∧ amt ≤ 2 then some "COFFEE" else some c

/-- The final assignment `t.category = matched || "UNCATEGORISED"`
(script.js:449): `null` and the empty string are both falsy. -/
def orUncategorised : Option String → String
  | none => "UNCATEGORISED"
  | some c => if c = "" then "UNCATEGORISED" else c

/-- The per-transaction body of `categorise` (script.js:428-450): first
matching rule's category, then the PETROL/COFFEE override for
`abs(amount) <= 2`, then `matched || "UNCATEGORISED"`. -/
def categoriseOne (rules : List Rule) (t : Txn) : Txn :=
  { t with
    category :=
      orUncategorised
        (applyOverride |t.amount| (firstMatch rules (asciiLowerS t.description))) }

/-- `categorise(txns, rules)` (script.js:427-451); the in-place mutation is
modelled as a map. -/
def categorise (txns : List Txn) (rules : List Rule) : List Txn :=
  txns.map (categoriseOne rules)

/-! ### Aggregator: `computeCategoryTotals` (script.js:462-482) -/

/-- Grouping key: `(t.category || 'UNCATEGORISED').toUpperCase()`. -/
def catKey (t : Txn) : String :=
  asciiUpperS (if t.category = "" then "UNCATEGORISED" else t.category)

/-- `byCat.set(cat, (byCat.get(cat) || 0) + amount)` on an insertion-ordered
association list (a JS `Map` keeps first-insertion order on update). -/
def addToMap : List (String × ℚ) → String → ℚ → List (String × ℚ)
  | [], k, v => [(k, v)]
  | p :: rest, k, v =>
    if p.1 = k then (p.1, p.2 + v) :: rest else p :: addToMap rest k v

/-- The accumulation loop of `computeCategoryTotals` (script.js:467-473). -/
def buildTotals (txns : List Txn) : List (String × ℚ) :=
  txns.foldl (fun m t => addToMap m (catKey t) t.amount) []

/-- Insertion of one row into a list sorted by descending total: the
inserted row goes before the first row whose total is not larger.  Since
`sortDesc` inserts earlier rows into the sorted tail, an earlier row
precedes later rows with equal totals, matching the stable JS
`sort((a, b) => b[1] - a[1])` (ties keep first-insertion order). -/
def insertDesc (p : String × ℚ) : List (String × ℚ) → List (String × ℚ)
  | [] => [p]
  | q :: qs => if q.2 ≤ p.2 then p :: q :: qs else q :: insertDesc p qs

/-- Stable descending sort by total (script.js:476). -/
def sortDesc : List (String × ℚ) → List (String × ℚ)
  | [] => []
  | p :: ps => insertDesc p (sortDesc ps)

/-- `computeCategoryTotals(txns)` (script.js:462-482): the sorted
`[category, total]` rows and the grand total
`rows.reduce((acc, [, v]) => acc + v, 0)`. -/
def computeCategoryTotals (txns : List Txn) : List (String × ℚ) × ℚ :=
  let rows := sortDesc (buildTotals txns)
  (rows, rows.foldl (fun acc p => acc + p.2) 0)

/-- Per-row percentage `grand ? (total / grand * 100) : 0`
(script.js:501 and script.js:809). -/
def pctOf (grand total : ℚ) : ℚ := if grand = 0 then 0 else total / grand * 100

/-! ### Transaction Importer: `loadCsvText` (script.js:252-297)

The model starts from the parsed rows (the `Papa.parse` CSV library is an
external collaborator); columns are `COL = { DATE: 2, DEBIT: 5,
LONGDESC: 9 }`. -/

/-- JS `r[i] || ''` for an array of strings. -/
def getCell (r : List String) (i : Nat) : String := r.getD i ""

/-- JS `isNaN(x)` applied to an actual number: `parseAmount` always returns
a number (never NaN), on which `isNaN` is `false`. -/
def jsIsNaN (_ : ℚ) : Bool := false

/-- JS `Number.isFinite(x)` on a modelled (rational, hence finite) number. -/
def jsIsFinite (_ : ℚ) : Bool := true

/-- The per-row body of the import loop (script.js:264-283): rows with
fewer than 10 cells are skipped; a transaction is kept when it has a date
or a description and a finite nonzero amount. -/
def processRow (r : List String) : Option Txn :=
  if r.length < 10 then none
  else
    let effectiveDate := getCell r 2
    let debit := parseAmount (getCell r 5)
    let longDesc := trimS (getCell r 9)
    if (effectiveDate ≠ "" ∨ longDesc ≠ "") ∧ jsIsFinite debit = true ∧ debit ≠ 0 then
      some ⟨effectiveDate, debit, longDesc, ""⟩
    else none

/-- `loadCsvText` (script.js:252-297) from parsed rows: the header check
`rows.length && isNaN(parseAmount(rows[0][COL.DEBIT])) ? 1 : 0`, then the
row loop. -/
def loadCsv (rows : List (List String)) : List Txn :=
  let startIdx :=
    if rows ≠ [] ∧ jsIsNaN (parseAmount (getCell (rows.headD []) 5)) = true then 1 else 0
  (rows.drop startIdx).filterMap processRow

/-! ### Rule upsert: `addOrUpdateRuleLine` (script.js:934-974) -/

/-- Split on `\n` (keeping empty pieces, as JS `split` does). -/
def splitNl : List Char → List (List Char)
  | [] => [[]]
  | c :: rest =>
    if c = '\n' then [] :: splitNl rest
    else
      match splitNl rest with
      | [] => [[c]]
      | p :: ps => (c :: p) :: ps

/-- Drop one trailing `\r` from every piece except the last. -/
def chopCr : List (List Char) → List (List Char)
  | [] => []
  | p :: ps =>
    match ps with
    | [] => [p]
    | _ :: _ => (if p.getLast? = some '\r' then p.dropLast else p) :: chopCr ps

/-- Split on the regex `/\r?\n/`: every `\n` separates, and the separator
consumes one `\r` standing immediately before the `\n`; a lone `\r` does
not separate.  Implemented as split-on-`\n` followed by removing the single
trailing `\r` (if any) of every piece except the last, which is the same
separator discipline. -/
def jsSplitLines (l : List Char) : List (List Char) := chopCr (splitNl l)

/-- `lines.join("\n")`. -/
def joinNl : List (List Char) → List Char
  | [] => []
  | l :: ls =>
    match ls with
    | [] => l
    | _ :: _ => l ++ '\n' :: joinNl ls

/-- Does the list contain the two-character sequence `=>`? -/
def hasArrow : List Char → Bool
  | [] => false
  | c :: rest => (c = '=' && rest.head? = some '>') || hasArrow rest

/-- Split on the literal `=>` (regex `/=>/i`; case is irrelevant for these
two characters).  `acc` holds the reversed current piece. -/
def splitArrowAux : List Char → List Char → List (List Char)
  | acc, [] => [acc.reverse]
  | acc, [c] => [(c :: acc).reverse]
  | acc, c1 :: c2 :: rest =>
    if c1 = '=' && c2 = '>' then acc.reverse :: splitArrowAux [] rest
    else splitArrowAux (c1 :: acc) (c2 :: rest)

def splitArrow (l : List Char) : List (List Char) := splitArrowAux [] l

/-- Does the trimmed line start with `#`? -/
def startsHash : List Char → Bool
  | [] => false
  | c :: _ => c = '#'

/-- The keyword parsed from a rule line by the upsert scan
(script.js:946-953): `none` for blank lines, comment lines and lines
without `=>`; otherwise `parts[0].trim().toLowerCase()`. -/
def parsedKw (line : List Char) : Option (List Char) :=
  let t := trimL line
  if t = [] then none
  else if startsHash t then none
  else
    match splitArrow t with
    | p0 :: _ :: _ => some (asciiLowerL (trimL p0))
    | _ => none

/-- The search-and-replace loop of `addOrUpdateRuleLine` (script.js:946-961):
replace the first line whose parsed keyword equals `kwLower` with `newLine`;
`none` when no line matches. -/
def upsertScan (kwLower newLine : List Char) : List (List Char) → Option (List (List Char))
  | [] => none
  | l :: ls =>
    if parsedKw l = some kwLower then some (newLine :: ls)
    else (upsertScan kwLower newLine ls).map fun ls2 => l :: ls2

/-- The replacement/appended line `` `${keywordUpper} => ${categoryUpper}` ``
(script.js:956 and script.js:965). -/
def newLineOf (keywordUpper categoryUpper : String) : List Char :=
  keywordUpper.data ++ ' ' :: '=' :: '>' :: ' ' :: categoryUpper.data

/-- `addOrUpdateRuleLine(keywordUpper, categoryUpper)` (script.js:934-974)
acting on the rules text: update the first line with the same keyword, or
append `KEYWORD => CATEGORY`; empty keyword or category is a no-op. -/
def addOrUpdateRuleLine (text keywordUpper categoryUpper : String) : String :=
  if keywordUpper = "" ∨ categoryUpper = "" then text
  else
    let lines := jsSplitLines text.data
    let kwLower := asciiLowerL keywordUpper.data
    let lines2 :=
      match upsertScan kwLower (newLineOf keywordUpper categoryUpper) lines with
      | some ls => ls
      | none => lines ++ [newLineOf keywordUpper categoryUpper]
    ⟨joinNl lines2⟩

/-! ## Matcher characterization: the scanning matcher agrees with the
declarative word-boundary reading of the regex -/

theorem tokHeadBounded_iff (tok : List Char) :
    ∀ u, tokHeadBounded tok u = true ↔ ∃ post, u = tok ++ post ∧ boundaryAfterP post := by
  induction tok with
  | nil =>
    intro u
    cases u with
    | nil => simp [tokHeadBounded, boundaryAfterP]
    | cons c cs => simp [tokHeadBounded, boundaryAfterP]
  | cons t ts ih =>
    intro u
    cases u with
    | nil => simp [tokHeadBounded]
    | cons c cs =>
      simp only [tokHeadBounded, Bool.and_eq_true, beq_iff_eq, ih]
      constructor
      · rintro ⟨rfl, post, rfl, hb⟩
        exact ⟨post, rfl, hb⟩
      · rintro ⟨post, h, hb⟩
        simp only [List.cons_append, List.cons.injEq] at h
        obtain ⟨rfl, rfl⟩ := h
        exact ⟨rfl, post, rfl, hb⟩

theorem tokenAppears_iff (tok : List Char) :
    ∀ (text : List Char) (bb : Bool), tokenAppears tok bb text = true ↔
      ∃ pre post, text = pre ++ tok ++ post ∧
        ((pre = [] ∧ bb = true) ∨ ∃ c, pre.getLast? = some c ∧ wordChar c = false) ∧
        boundaryAfterP post := by
  intro text
  induction text with
  | nil =>
    intro bb
    simp only [tokenAppears, Bool.and_eq_true, tokHeadBounded_iff]
    constructor
    · rintro ⟨hbb, post, hpost, hb⟩
      obtain ⟨rfl, rfl⟩ := List.append_eq_nil.mp hpost.symm
      exact ⟨[], [], rfl, Or.inl ⟨rfl, hbb⟩, hb⟩
    · rintro ⟨pre, post, h, hc, hb⟩
      obtain ⟨h4, rfl⟩ := List.append_eq_nil.mp h.symm
      obtain ⟨rfl, rfl⟩ := List.append_eq_nil.mp h4
      rcases hc with ⟨-, hbb⟩ | ⟨c, hc0, -⟩
      · exact ⟨hbb, [], rfl, hb⟩
      · simp at hc0
  | cons c cs ih =>
    intro bb
    simp only [tokenAppears, Bool.or_eq_true, Bool.and_eq_true, tokHeadBounded_iff, ih]
    constructor
    · rintro (⟨hbb, post, h, hb⟩ | ⟨pre2, post, rfl, hc, hb⟩)
      · exact ⟨[], post, by simpa using h, Or.inl ⟨rfl, hbb⟩, hb⟩
      · refine ⟨c :: pre2, post, by simp, Or.inr ?_, hb⟩
        rcases hc with ⟨rfl, hw⟩ | ⟨c0, hc0, hw0⟩
        · exact ⟨c, by simp, by simpa using hw⟩
        · refine ⟨c0, ?_, hw0⟩
          cases pre2 with
          | nil => simp at hc0
          | cons d ds => simpa using hc0
    · rintro ⟨pre, post, h, hc, hb⟩
      cases pre with
      | nil =>
        rcases hc with ⟨-, hbb⟩ | ⟨c0, hc0, -⟩
        · exact Or.inl ⟨hbb, post, by simpa using h, hb⟩
        · simp at hc0
      | cons p ps =>
        simp only [List.cons_append, List.cons.injEq] at h
        obtain ⟨rfl, rfl⟩ := h
        refine Or.inr ⟨ps, post, rfl, ?_, hb⟩
        rcases hc with ⟨hfalse, -⟩ | ⟨c0, hc0, hw0⟩
        · simp at hfalse
        · cases ps with
          | nil =>
            simp only [List.getLast?_singleton, Option.some.injEq] at hc0
            subst hc0
            exact Or.inl ⟨rfl, by simpa using hw0⟩
          | cons d ds =>
            refine Or.inr ⟨c0, ?_, hw0⟩
            simpa using hc0

theorem tokenAppears_start_iff (text tok : List Char) :
    tokenAppears tok true text = true ↔ occursBounded text tok := by
  rw [tokenAppears_iff]
  unfold occursBounded boundaryBeforeP
  constructor
  · rintro ⟨pre, post, rfl, hc, ha⟩
    refine ⟨pre, post, rfl, ?_, ha⟩
    rcases hc with ⟨h1, -⟩ | h2
    · exact Or.inl h1
    · exact Or.inr h2
  · rintro ⟨pre, post, rfl, hb, ha⟩
    refine ⟨pre, post, rfl, ?_, ha⟩
    rcases hb with h1 | h2
    · exact Or.inl ⟨h1, rfl⟩
    · exact Or.inr h2

theorem matchesKeyword_iff (d kw : String) :
    matchesKeyword d kw = true ↔
      (splitWs (asciiLowerL kw.data) ≠ [] ∧
       ∀ tok ∈ splitWs (asciiLowerL kw.data), occursBounded (asciiLowerL d.data) tok) := by
  unfold matchesKeyword
  by_cases hkw : kw = ""
  · subst hkw
    constructor
    · intro h
      simp at h
    · rintro ⟨hne, -⟩
      exact absurd (by decide : splitWs (asciiLowerL ("" : String).data) = []) hne
  · simp only [if_neg hkw]
    by_cases ht : splitWs (asciiLowerL kw.data) = []
    · simp [ht]
    · rw [if_neg ht]
      simp only [List.all_eq_true]
      constructor
      · intro h
        exact ⟨ht, fun tok htok => (tokenAppears_start_iff _ _).mp (h tok htok)⟩
      · rintro ⟨-, h⟩
        intro tok htok
        exact (tokenAppears_start_iff _ _).mpr (h tok htok)

/-! ## Claim C4 -/

/-- C4 counterexample: the claim asserts that keyword `cafe` matches
description `CAFE.COM`; in the code `.` is a word character, so `cafe` is
not right-bounded in `CAFE.COM` and the matcher returns `false`. -/
theorem C4_counterexample : ¬ matchesKeyword "CAFE.COM" "cafe" = true := by decide

/-- C4 (amended): the keyword matcher with keyword `cafe` returns `false`
for description `CAFE.COM` (`.` is a non-delimiting word character, so
`cafe` has no right boundary there) and `false` for `ecafe` (no boundary
before `cafe`); the full-word keyword `cafe.com` does match `CAFE.COM`. -/
theorem C4_cafe_boundary :
    matchesKeyword "CAFE.COM" "cafe" = false ∧
    matchesKeyword "ecafe" "cafe" = false ∧
    matchesKeyword "CAFE.COM" "cafe.com" = true := by decide

/-! ## Claim C5 -/

/-- C5: `parseDateSmart` resolves `01/02/2024` with day first (1 February
2024), `2024-02-01` as ISO (1 February 2024), `1 March, 2024` as prose
(1 March 2024), and returns the unparseable sentinel `none` on any input
matching none of the three patterns — there is no fallback parser. -/
theorem C5_date_precedence :
    parseDateSmart "01/02/2024" = some ⟨2024, 2, 1⟩ ∧
    parseDateSmart "2024-02-01" = some ⟨2024, 2, 1⟩ ∧
    parseDateSmart "1 March, 2024" = some ⟨2024, 3, 1⟩ ∧
    ∀ s : String, pat1 (trimL s.data) = none → pat2 (trimL s.data) = none →
      pat3 (stripTime (trimL s.data)) = none → parseDateSmart s = none := by
  refine ⟨by decide, by decide, by decide, ?_⟩
  intro s h1 h2 h3
  unfold parseDateSmart
  by_cases hs : s = ""
  · simp [hs]
  · simp [hs, h1, h2, h3]

/-- C5 witness: a concrete input matching no pattern parses to `none`. -/
theorem C5_witness : parseDateSmart "not a date" = none :=
  C5_date_precedence.2.2.2 "not a date" (by decide) (by decide) (by decide)

/-! ## Claim C6 -/

/-- C6 counterexample: a 401-digit amount string converts past the largest
finite double, `Number` yields +Infinity, and `Number(s) || 0` passes the
truthy Infinity through — so `parseAmount` returns a value that is neither
finite nor 0, refuting the claim that the result is exactly 0 whenever the
cleaned string does not convert to a finite number (and that the result is
always finite). -/
theorem C6_counterexample :
    parseAmountJs ⟨'1' :: List.replicate 400 '0'⟩ = JsNum.posInf ∧
    JsNum.posInf ≠ JsNum.finite 0 := by decide

/-- C6 (amended): `parseAmount` is total — for every input it returns a
number — and the result is exactly 0 whenever the cleaned-up string does
not convert to a number at all (NaN); but when the cleaned string's decimal
value overflows binary64 (magnitude at least `2 ^ 1024 - 2 ^ 970`, i.e. a
309-or-more digit integer part), `Number` yields a truthy ±Infinity that
`|| 0` passes through, so the result is then non-finite and nonzero rather
than 0.  On the finite range the result is the converted value, with `-0`
and `0` collapsing to 0. -/
theorem C6_parseAmount_total (s : String) :
    (jsNumberJs (cleanAmount s.data) = JsNum.nan → parseAmountJs s = JsNum.finite 0) ∧
    (∀ q : ℚ, jsNumberJs (cleanAmount s.data) = JsNum.finite q →
      parseAmountJs s = JsNum.finite q) ∧
    (jsNumberJs (cleanAmount s.data) = JsNum.posInf → parseAmountJs s = JsNum.posInf) ∧
    (jsNumberJs (cleanAmount s.data) = JsNum.negInf → parseAmountJs s = JsNum.negInf) ∧
    parseAmount s = (jsNumber (cleanAmount s.data)).getD 0 := by
  refine ⟨?_, ?_, ?_, ?_, ?_⟩
  · intro h
    unfold parseAmountJs
    rw [h]
  · intro q h
    unfold parseAmountJs
    rw [h]
    show (if q = 0 then JsNum.finite 0 else JsNum.finite q) = JsNum.finite q
    by_cases hq : q = 0
    · rw [if_pos hq, hq]
    · rw [if_neg hq]
  · intro h
    unfold parseAmountJs
    rw [h]
  · intro h
    unfold parseAmountJs
    rw [h]
  · unfold parseAmount
    cases h : jsNumber (cleanAmount s.data) with
    | none => rfl
    | some q =>
      show (if q = 0 then (0 : ℚ) else q) = (some q).getD 0
      by_cases hq : q = 0
      · rw [if_pos hq, hq]
        rfl
      · rw [if_neg hq]
        rfl

/-- C6 witness: a NaN-shaped cleaned string (two decimal points) returns 0,
an in-range amount returns its converted value, and a 400-digit amount
returns +Infinity. -/
theorem C6_witness :
    parseAmountJs "1.2.3" = JsNum.finite 0 ∧
    parseAmountJs "2.50" = JsNum.finite (mkRat 250 100) ∧
    parseAmountJs ⟨'9' :: List.replicate 399 '0'⟩ = JsNum.posInf :=
  ⟨(C6_parseAmount_total "1.2.3").1 (by decide),
    (C6_parseAmount_total "2.50").2.1 (mkRat 250 100) (by decide),
    (C6_parseAmount_total ⟨'9' :: List.replicate 399 '0'⟩).2.2.1 (by decide)⟩

/-! ## Claim C10 -/

/-- C10: the numeric date patterns get no calendar-range validation:
`31/02/2024` parses (to the rolled-over 2 March 2024, not the written
fields) and `2024-13-05` parses (to the rolled-over 5 January 2025), and
every input matching the ISO or day/month numeric digit pattern yields a
parsed date, never the unparseable sentinel. -/
theorem C10_no_range_validation :
    parseDateSmart "31/02/2024" = some ⟨2024, 3, 2⟩ ∧
    parseDateSmart "2024-13-05" = some ⟨2025, 1, 5⟩ ∧
    ∀ s : String, ((pat1 (trimL s.data)).isSome || (pat2 (trimL s.data)).isSome) = true →
      (parseDateSmart s).isSome = true := by
  refine ⟨by decide, by decide, ?_⟩
  intro s h
  unfold parseDateSmart
  by_cases hs : s = ""
  · subst hs
    revert h
    decide
  · simp only [if_neg hs]
    cases h1 : pat1 (trimL s.data) with
    | some d => simp
    | none =>
      cases h2 : pat2 (trimL s.data) with
      | some d => simp
      | none => rw [h1, h2] at h; simp at h

/-- C10 witness: the out-of-range day 31/02/2024 still yields a date. -/
theorem C10_witness : (parseDateSmart "31/02/2024").isSome = true :=
  C10_no_range_validation.2.2 "31/02/2024" (by decide)

/-! ## First-match-wins scan of `categorise` -/

theorem firstMatch_none (rules : List Rule) (d : String)
    (h : ∀ r ∈ rules, matchesKeyword d r.keyword = false) : firstMatch rules d = none := by
  induction rules with
  | nil => rfl
  | cons r rs ih =>
    have hr := h r (by simp)
    simp only [firstMatch, hr, Bool.false_eq_true, if_false]
    exact ih fun x hx => h x (by simp [hx])

theorem firstMatch_first (d : String) :
    ∀ (rules : List Rule) (i : Nat) (hi : i < rules.length),
      matchesKeyword d (rules.get ⟨i, hi⟩).keyword = true →
      (∀ j (hj : j < rules.length), j < i → matchesKeyword d (rules.get ⟨j, hj⟩).keyword = false) →
      firstMatch rules d = some (rules.get ⟨i, hi⟩).category := by
  intro rules
  induction rules with
  | nil => intro i hi; simp at hi
  | cons r rs ih =>
    intro i hi hm hprev
    cases i with
    | zero =>
      simp only [List.get] at hm ⊢
      simp [firstMatch, hm]
    | succ k =>
      have h0 : matchesKeyword d r.keyword = false := by
        simpa using hprev 0 (by simp) (Nat.succ_pos k)
      simp only [firstMatch, h0, Bool.false_eq_true, if_false]
      have hk : k < rs.length := by simpa using hi
      have hres := ih k hk (by simpa using hm) ?_
      · simpa using hres
      · intro j hj hjk
        simpa using hprev (j + 1) (by simpa using hj) (Nat.succ_lt_succ hjk)

/-- The assigned category when no rule matched: the sentinel string. -/
theorem categoriseOne_category_none (rules : List Rule) (t : Txn)
    (h : firstMatch rules (asciiLowerS t.description) = none) :
    (categoriseOne rules t).category = "UNCATEGORISED" := by
  unfold categoriseOne
  rw [h]
  rfl

/-- The assigned category as a function of a successful first match: the
PETROL/COFFEE override, then `matched || "UNCATEGORISED"`. -/
theorem categoriseOne_category_some (rules : List Rule) (t : Txn) (c : String)
    (h : firstMatch rules (asciiLowerS t.description) = some c) :
    (categoriseOne rules t).category =
      if c ≠ "" ∧ asciiUpperS c = "PETROL" ∧ |t.amount| ≤ 2 then "COFFEE"
      else if c = "" then "UNCATEGORISED" else c := by
  unfold categoriseOne
  rw [h]
  simp only [applyOverride]
  by_cases hc : c ≠ "" ∧ asciiUpperS c = "PETROL" ∧ |t.amount| ≤ 2
  · rw [if_pos hc, if_pos hc]
    simp only [orUncategorised]
    rw [if_neg (by decide : ¬("COFFEE" : String) = "")]
  · rw [if_neg hc, if_neg hc]
    simp only [orUncategorised]

/-! ## Claim C1 -/

/-- C1 counterexample: with the single rule `petrol => PETROL` and the
matching transaction `petrol` of amount 1, `categorise` assigns `COFFEE`,
not the category `PETROL` of the first matching rule, so the claim as
stated fails (the PETROL/COFFEE override intervenes after matching). -/
theorem C1_counterexample :
    matchesKeyword "petrol" "petrol" = true ∧
    (categorise [⟨"", 1, "petrol", ""⟩] [⟨"petrol", "PETROL"⟩]).map Txn.category = ["COFFEE"] ∧
    ("COFFEE" : String) ≠ "PETROL" := by decide

/-- C1 (amended): the keyword matcher accepts exactly the descriptions in
which every whitespace token of the keyword occurs bounded by non-word
characters (outside letters, digits, `&`, `.`, `_`) or string edges in the
lower-cased description — in particular a keyword with no tokens never
matches; a transaction matched by no rule is assigned the `UNCATEGORISED`
sentinel; and (for rules with nonempty categories) a transaction whose
first matching rule in list order is rule `i` is assigned that rule's
category, except that a category equal to `PETROL` case-insensitively with
`|amount| ≤ 2` is overridden to `COFFEE`. -/
theorem C1_first_match_wins :
    (∀ d kw : String, matchesKeyword d kw = true ↔
      (splitWs (asciiLowerL kw.data) ≠ [] ∧
       ∀ tok ∈ splitWs (asciiLowerL kw.data), occursBounded (asciiLowerL d.data) tok)) ∧
    (∀ (rules : List Rule) (t : Txn),
      (∀ r ∈ rules, matchesKeyword (asciiLowerS t.description) r.keyword = false) →
      (categoriseOne rules t).category = "UNCATEGORISED") ∧
    (∀ (rules : List Rule) (t : Txn) (i : Nat) (hi : i < rules.length),
      (∀ r ∈ rules, r.category ≠ "") →
      matchesKeyword (asciiLowerS t.description) (rules.get ⟨i, hi⟩).keyword = true →
      (∀ j (hj : j < rules.length), j < i →
        matchesKeyword (asciiLowerS t.description) (rules.get ⟨j, hj⟩).keyword = false) →
      (categoriseOne rules t).category =
        if asciiUpperS (rules.get ⟨i, hi⟩).category = "PETROL" ∧ |t.amount| ≤ 2
        then "COFFEE" else (rules.get ⟨i, hi⟩).category) := by
  refine ⟨matchesKeyword_iff, ?_, ?_⟩
  · intro rules t h
    exact categoriseOne_category_none rules t (firstMatch_none rules _ h)
  · intro rules t i hi hcat hm hprev
    rw [categoriseOne_category_some rules t _ (firstMatch_first _ rules i hi hm hprev)]
    have hne : (rules.get ⟨i, hi⟩).category ≠ "" := hcat _ (rules.get_mem i hi)
    by_cases hp : asciiUpperS (rules.get ⟨i, hi⟩).category = "PETROL" ∧ |t.amount| ≤ 2
    · rw [if_pos ⟨hne, hp.1, hp.2⟩, if_pos hp]
    · rw [if_neg fun hh => hp ⟨hh.2.1, hh.2.2⟩, if_neg hp, if_neg hne]

/-- C1 witness: an unmatched transaction gets the sentinel, and a
transaction matched first by the second rule gets that rule's category. -/
theorem C1_witness :
    (categoriseOne [⟨"opal", "TRANSPORT"⟩] ⟨"", 5, "no match here", ""⟩).category =
      "UNCATEGORISED" ∧
    (categoriseOne [⟨"zzz", "AAA"⟩, ⟨"cafe", "COFFEE SHOP"⟩]
        ⟨"", 5, "go cafe now", ""⟩).category = "COFFEE SHOP" := by
  constructor
  · exact C1_first_match_wins.2.1 _ _ (by decide)
  · have h := C1_first_match_wins.2.2 [⟨"zzz", "AAA"⟩, ⟨"cafe", "COFFEE SHOP"⟩]
      ⟨"", 5, "go cafe now", ""⟩ 1 (by decide)
      (by intro r hr; fin_cases hr <;> decide)
      (by decide)
      (by intro j hj hlt
          have hj0 : j = 0 := by omega
          subst hj0
          have hget : ([⟨"zzz", "AAA"⟩, ⟨"cafe", "COFFEE SHOP"⟩] : List Rule).get ⟨0, hj⟩ =
              ⟨"zzz", "AAA"⟩ := rfl
          rw [hget]
          decide)
    rw [h, if_neg (by decide)]
    rfl

/-! ## Claim C2 -/

/-- C2: if the first matching rule's (nonempty) category equals `PETROL`
case-insensitively and the absolute amount is at most 2, the assigned
category is `COFFEE`, regardless of the amount's sign (the code takes
`Math.abs` first); any matched category other than `PETROL` is assigned
unchanged, and `PETROL` with `|amount| > 2` is likewise unchanged. -/
theorem C2_petrol_override (rules : List Rule) (t : Txn) (c : String)
    (hm : firstMatch rules (asciiLowerS t.description) = some c) (hc : c ≠ "") :
    (asciiUpperS c = "PETROL" → |t.amount| ≤ 2 → (categoriseOne rules t).category = "COFFEE") ∧
    (asciiUpperS c ≠ "PETROL" → (categoriseOne rules t).category = c) ∧
    (asciiUpperS c = "PETROL" → ¬|t.amount| ≤ 2 → (categoriseOne rules t).category = c) := by
  have h := categoriseOne_category_some rules t c hm
  refine ⟨?_, ?_, ?_⟩
  · intro hp ha
    rw [h, if_pos ⟨hc, hp, ha⟩]
  · intro hp
    rw [h, if_neg fun hh => hp hh.2.1, if_neg hc]
  · intro hp ha
    rw [h, if_neg fun hh => ha hh.2.2, if_neg hc]

/-- C2 witness: a negative amount of absolute value at most 2 matched as
PETROL becomes COFFEE, and a non-PETROL match is untouched. -/
theorem C2_witness :
    (categoriseOne [⟨"petrol", "PETROL"⟩] ⟨"", -1, "petrol stop", ""⟩).category = "COFFEE" ∧
    (categoriseOne [⟨"rent", "RENT"⟩] ⟨"", -1, "rent pay", ""⟩).category = "RENT" := by
  constructor
  · exact (C2_petrol_override _ _ "PETROL" (by decide) (by decide)).1 (by decide) (by decide)
  · exact (C2_petrol_override _ _ "RENT" (by decide) (by decide)).2.1 (by decide)

/-! ## Claim C3 -/

/-- C3 counterexample: `categorise` writes the literal string
`UNCATEGORISED` into the stored category of a transaction no rule matched
(here: no rules at all), so the stored value is not empty/absent as the
claim states. -/
theorem C3_counterexample :
    (categorise [⟨"", 1, "anything", ""⟩] []).map Txn.category = ["UNCATEGORISED"] ∧
    ("UNCATEGORISED" : String) ≠ "" := by decide

/-- C3 (amended): after `categorise`, a transaction matched by no rule has
the literal string `UNCATEGORISED` (nonempty) stored in its category field;
independently, the aggregation key of `computeCategoryTotals` maps an empty
stored category to the `UNCATEGORISED` label. -/
theorem C3_sentinel_stored (t : Txn) (rules : List Rule)
    (h : ∀ r ∈ rules, matchesKeyword (asciiLowerS t.description) r.keyword = false) :
    (categoriseOne rules t).category = "UNCATEGORISED" ∧
    (categoriseOne rules t).category ≠ "" ∧
    (∀ u : Txn, u.category = "" → catKey u = "UNCATEGORISED") := by
  have h1 : (categoriseOne rules t).category = "UNCATEGORISED" :=
    categoriseOne_category_none rules t (firstMatch_none rules _ h)
  refine ⟨h1, by rw [h1]; decide, ?_⟩
  intro u hu
  unfold catKey
  rw [hu]
  decide

/-- C3 witness: a concrete unmatched transaction stores the sentinel. -/
theorem C3_witness :
    (categoriseOne [⟨"xyz", "X"⟩] ⟨"", 2, "abc", ""⟩).category = "UNCATEGORISED" :=
  (C3_sentinel_stored ⟨"", 2, "abc", ""⟩ [⟨"xyz", "X"⟩] (by decide)).1

/-! ## Claim C7 -/

/-- C7: the first row of the tabular input contributes no transaction
exactly when its amount column does not parse to a (finite) nonzero number,
and otherwise it is processed as an ordinary data row.  In the source the
`isNaN(parseAmount(...))` header test is vacuously false — `parseAmount`
never returns NaN — so no row index is pre-skipped; a first row with a
non-numeric amount column is instead dropped by the nonzero-amount data
filter, which gives exactly the claimed observable behaviour. -/
theorem C7_header_detection (row0 : List String) (rest : List (List String)) :
    (parseAmount (getCell row0 5) = 0 → loadCsv (row0 :: rest) = rest.filterMap processRow) ∧
    (parseAmount (getCell row0 5) ≠ 0 →
      loadCsv (row0 :: rest) = (processRow row0).toList ++ rest.filterMap processRow) := by
  have hload : loadCsv (row0 :: rest) = (processRow row0).toList ++ rest.filterMap processRow := by
    unfold loadCsv
    simp only [jsIsNaN, Bool.false_eq_true, and_false, if_false, List.drop_zero]
    cases hp : processRow row0 <;> simp [List.filterMap_cons, hp]
  constructor
  · intro h0
    have hnone : processRow row0 = none := by
      unfold processRow
      by_cases hlen : row0.length < 10
      · rw [if_pos hlen]
      · rw [if_neg hlen]
        simp [h0]
    rw [hload, hnone]
    rfl
  · intro _
    exact hload

/-! ## Claim C8: aggregation conservation -/

theorem sumVals_addToMap (m : List (String × ℚ)) (k : String) (v : ℚ) :
    ((addToMap m k v).map Prod.snd).sum = (m.map Prod.snd).sum + v := by
  induction m with
  | nil => simp [addToMap]
  | cons p rest ih =>
    by_cases hp : p.1 = k
    · simp only [addToMap, if_pos hp, List.map_cons, List.sum_cons]
      ring
    · simp only [addToMap, if_neg hp, List.map_cons, List.sum_cons, ih]
      ring

theorem sumVals_buildTotals (txns : List Txn) :
    ((buildTotals txns).map Prod.snd).sum = (txns.map Txn.amount).sum := by
  suffices h : ∀ (ts : List Txn) (m : List (String × ℚ)),
      ((ts.foldl (fun m t => addToMap m (catKey t) t.amount) m).map Prod.snd).sum =
        (m.map Prod.snd).sum + (ts.map Txn.amount).sum by
    simpa using h txns []
  intro ts
  induction ts with
  | nil => intro m; simp
  | cons t ts2 ih =>
    intro m
    simp only [List.foldl_cons, List.map_cons, List.sum_cons]
    rw [ih, sumVals_addToMap]
    ring

theorem sumVals_insertDesc (p : String × ℚ) (l : List (String × ℚ)) :
    ((insertDesc p l).map Prod.snd).sum = p.2 + (l.map Prod.snd).sum := by
  induction l with
  | nil => simp [insertDesc]
  | cons q qs ih =>
    by_cases hq : q.2 ≤ p.2
    · simp [insertDesc, hq]
    · simp only [insertDesc, if_neg hq, List.map_cons, List.sum_cons, ih]
      ring

theorem sumVals_sortDesc (l : List (String × ℚ)) :
    ((sortDesc l).map Prod.snd).sum = (l.map Prod.snd).sum := by
  induction l with
  | nil => rfl
  | cons p ps ih => simp [sortDesc, sumVals_insertDesc, ih]

theorem foldl_add_eq_sum (l : List (String × ℚ)) :
    ∀ a : ℚ, l.foldl (fun acc p => acc + p.2) a = a + (l.map Prod.snd).sum := by
  induction l with
  | nil => intro a; simp
  | cons p ps ih =>
    intro a
    simp only [List.foldl_cons, List.map_cons, List.sum_cons, ih]
    ring

theorem pct_map_sum (g : ℚ) (l : List (String × ℚ)) :
    (l.map fun p => p.2 / g * 100).sum = (l.map Prod.snd).sum / g * 100 := by
  induction l with
  | nil => simp
  | cons p ps ih =>
    simp only [List.map_cons, List.sum_cons, ih]
    ring

/-- C8: the row totals of `computeCategoryTotals` sum to the returned grand
total, which equals the signed sum of all transaction amounts; every
per-row percentage is 0 when the grand total is 0, and the percentages sum
to exactly 100 when the grand total is nonzero. -/
theorem C8_totals_conservation (txns : List Txn) :
    ((computeCategoryTotals txns).1.map Prod.snd).sum = (computeCategoryTotals txns).2 ∧
    (computeCategoryTotals txns).2 = (txns.map Txn.amount).sum ∧
    ((computeCategoryTotals txns).2 = 0 →
      ∀ p ∈ (computeCategoryTotals txns).1, pctOf (computeCategoryTotals txns).2 p.2 = 0) ∧
    ((computeCategoryTotals txns).2 ≠ 0 →
      ((computeCategoryTotals txns).1.map
        fun p => pctOf (computeCategoryTotals txns).2 p.2).sum = 100) := by
  have hfst : (computeCategoryTotals txns).1 = sortDesc (buildTotals txns) := rfl
  have hsnd : (computeCategoryTotals txns).2 =
      (sortDesc (buildTotals txns)).foldl (fun acc p => acc + p.2) 0 := rfl
  have hgrand : (computeCategoryTotals txns).2 =
      ((computeCategoryTotals txns).1.map Prod.snd).sum := by
    rw [hsnd, hfst, foldl_add_eq_sum]
    ring
  have hsum : (computeCategoryTotals txns).2 = (txns.map Txn.amount).sum := by
    rw [hgrand, hfst, sumVals_sortDesc, sumVals_buildTotals]
  refine ⟨hgrand.symm, hsum, ?_, ?_⟩
  · intro hg p hp
    simp [pctOf, hg]
  · intro hg
    have hstep : ((computeCategoryTotals txns).1.map
        fun p => pctOf (computeCategoryTotals txns).2 p.2).sum =
        ((computeCategoryTotals txns).1.map
          fun p => p.2 / (computeCategoryTotals txns).2 * 100).sum := by
      simp only [pctOf, if_neg hg]
    rw [hstep, pct_map_sum, ← hgrand, div_self hg, one_mul]

/-- C8 witness: on a one-transaction set the percentages sum to 100, and on
the empty set the grand total is the (empty) signed sum. -/
theorem C8_witness :
    ((computeCategoryTotals [⟨"", 2, "a", "X"⟩]).1.map
      fun p => pctOf (computeCategoryTotals [⟨"", 2, "a", "X"⟩]).2 p.2).sum = 100 ∧
    (computeCategoryTotals ([] : List Txn)).2 = (([] : List Txn).map Txn.amount).sum := by
  constructor
  · have h2 : (computeCategoryTotals [⟨"", 2, "a", "X"⟩]).2 = 2 := by
      simp [computeCategoryTotals, buildTotals, addToMap, catKey, sortDesc, insertDesc]
    exact (C8_totals_conservation [⟨"", 2, "a", "X"⟩]).2.2.2 (by rw [h2]; norm_num)
  · exact (C8_totals_conservation []).2.1

/-- C7 witness: a header row whose amount column is the word `Amount`
contributes nothing, and the remaining row imports as a transaction. -/
theorem C7_witness :
    loadCsv [["", "", "Date", "", "", "Amount", "", "", "", "Desc"],
      ["", "", "1/6/2025", "", "", "-12.00", "", "", "", "WOOLWORTHS"]] =
      [⟨"1/6/2025", -12, "WOOLWORTHS", ""⟩] := by
  have h := (C7_header_detection ["", "", "Date", "", "", "Amount", "", "", "", "Desc"]
      [["", "", "1/6/2025", "", "", "-12.00", "", "", "", "WOOLWORTHS"]]).1 (by decide)
  rw [h]
  decide

/-! ## Claim C9: rule upsert

Supporting lemmas: the line split of the rules text round-trips through
`join("\n")` when no line contains a separator character, the `=>` split
isolates the keyword of the canonical replacement line, and the upsert scan
replaces exactly the first matching line. -/

theorem length_dropWhile_le (p : Char → Bool) (l : List Char) :
    (l.dropWhile p).length ≤ l.length := by
  induction l with
  | nil => simp
  | cons c cs ih =>
    rw [List.dropWhile_cons]
    by_cases hc : p c = true
    · rw [if_pos hc]
      exact Nat.le_succ_of_le ih
    · rw [if_neg hc]

theorem splitNl_ne_nil (l : List Char) : splitNl l ≠ [] := by
  cases l with
  | nil => simp [splitNl]
  | cons c cs =>
    rw [splitNl]
    by_cases hc : c = '\n'
    · rw [if_pos hc]; simp
    · rw [if_neg hc]
      cases splitNl cs <;> simp

theorem splitNl_no_nl (l : List Char) (h : '\n' ∉ l) : splitNl l = [l] := by
  induction l with
  | nil => rfl
  | cons c cs ih =>
    simp only [List.mem_cons, not_or] at h
    rw [splitNl, if_neg (fun hc => h.1 hc.symm), ih h.2]

theorem splitNl_append_nl (l rest : List Char) (h : '\n' ∉ l) :
    splitNl (l ++ '\n' :: rest) = l :: splitNl rest := by
  induction l with
  | nil =>
    rw [List.nil_append, splitNl, if_pos rfl]
  | cons c cs ih =>
    simp only [List.mem_cons, not_or] at h
    rw [List.cons_append, splitNl, if_neg (fun hc => h.1 hc.symm), ih h.2]

theorem splitNl_joinNl (ls : List (List Char)) (hne : ls ≠ [])
    (h : ∀ p ∈ ls, '\n' ∉ p) : splitNl (joinNl ls) = ls := by
  induction ls with
  | nil => exact absurd rfl hne
  | cons l ls2 ih =>
    cases ls2 with
    | nil =>
      rw [show joinNl [l] = l from rfl]
      exact splitNl_no_nl l (h l (by simp))
    | cons l2 ls3 =>
      rw [show joinNl (l :: l2 :: ls3) = l ++ '\n' :: joinNl (l2 :: ls3) from rfl]
      rw [splitNl_append_nl l _ (h l (by simp))]
      rw [ih (by simp) (fun p hp => h p (by simp [hp]))]

theorem chopCr_id (ls : List (List Char)) (h : ∀ p ∈ ls, '\r' ∉ p) :
    chopCr ls = ls := by
  induction ls with
  | nil => rfl
  | cons p ps ih =>
    cases ps with
    | nil => rfl
    | cons q qs =>
      rw [chopCr]
      have hlast : ¬p.getLast? = some '\r' := by
        intro hl
        obtain ⟨ys, rfl⟩ := List.getLast?_eq_some_iff.mp hl
        exact h (ys ++ ['\r']) (by simp) (by simp)
      rw [if_neg hlast, ih (fun x hx => h x (by simp [hx]))]

theorem jsSplitLines_joinNl (ls : List (List Char)) (hne : ls ≠ [])
    (h : ∀ p ∈ ls, '\n' ∉ p ∧ '\r' ∉ p) : jsSplitLines (joinNl ls) = ls := by
  unfold jsSplitLines
  rw [splitNl_joinNl ls hne (fun p hp => (h p hp).1), chopCr_id ls (fun p hp => (h p hp).2)]

theorem splitNl_chars (l : List Char) :
    ∀ p ∈ splitNl l, ∀ c ∈ p, c ∈ l ∧ ¬c = '\n' := by
  induction l with
  | nil =>
    intro p hp c hc
    simp [splitNl] at hp
    subst hp
    simp at hc
  | cons c0 cs ih =>
    intro p hp c hc
    by_cases h0 : c0 = '\n'
    · rw [splitNl, if_pos h0] at hp
      rcases List.mem_cons.mp hp with rfl | hmem
      · simp at hc
      · obtain ⟨hcl, hcn⟩ := ih p hmem c hc
        exact ⟨by simp [hcl], hcn⟩
    · rw [splitNl, if_neg h0] at hp
      cases hsp : splitNl cs with
      | nil => exact absurd hsp (splitNl_ne_nil cs)
      | cons q qs =>
        rw [hsp] at hp
        rcases List.mem_cons.mp hp with rfl | hmem
        · rcases List.mem_cons.mp hc with rfl | hcq
          · exact ⟨by simp, h0⟩
          · obtain ⟨hcl, hcn⟩ := ih q (by rw [hsp]; simp) c hcq
            exact ⟨by simp [hcl], hcn⟩
        · obtain ⟨hcl, hcn⟩ := ih p (by rw [hsp]; simp [hmem]) c hc
          exact ⟨by simp [hcl], hcn⟩

theorem chopCr_mem (ls : List (List Char)) :
    ∀ p ∈ chopCr ls, ∃ q ∈ ls, p = q ∨ p = q.dropLast := by
  induction ls with
  | nil => intro p hp; simp [chopCr] at hp
  | cons q ps ih =>
    intro p hp
    cases ps with
    | nil =>
      rw [show chopCr [q] = [q] from rfl] at hp
      simp only [List.mem_singleton] at hp
      exact ⟨q, by simp, Or.inl hp⟩
    | cons q2 qs =>
      rw [chopCr] at hp
      rcases List.mem_cons.mp hp with rfl | hmem
      · by_cases hl : q.getLast? = some '\r'
        · exact ⟨q, by simp, Or.inr (by rw [if_pos hl])⟩
        · exact ⟨q, by simp, Or.inl (by rw [if_neg hl])⟩
      · obtain ⟨q3, hq3, hor⟩ := ih p hmem
        exact ⟨q3, by simp [hq3], hor⟩

theorem jsSplitLines_chars (l : List Char) (hr : '\r' ∉ l) :
    ∀ p ∈ jsSplitLines l, '\n' ∉ p ∧ '\r' ∉ p := by
  intro p hp
  obtain ⟨q, hq, hor⟩ := chopCr_mem (splitNl l) p hp
  have hqchars : ∀ c ∈ q, c ∈ l ∧ ¬c = '\n' := fun c hc => splitNl_chars l q hq c hc
  have hgood : '\n' ∉ q ∧ '\r' ∉ q := by
    constructor
    · intro hmem; exact (hqchars '\n' hmem).2 rfl
    · intro hmem; exact hr (hqchars '\r' hmem).1
  rcases hor with rfl | rfl
  · exact hgood
  · exact ⟨fun hmem => hgood.1 (List.mem_of_mem_dropLast hmem),
      fun hmem => hgood.2 (List.mem_of_mem_dropLast hmem)⟩

theorem splitArrowAux_ne_nil (l : List Char) : ∀ acc, splitArrowAux acc l ≠ [] := by
  induction l with
  | nil => intro acc; simp [splitArrowAux]
  | cons c cs ih =>
    intro acc
    cases cs with
    | nil => simp [splitArrowAux]
    | cons c2 cs2 =>
      rw [splitArrowAux]
      by_cases h : (c = '=' && c2 = '>') = true
      · rw [if_pos h]; simp
      · rw [if_neg h]; exact ih (c :: acc)

theorem splitArrowAux_no_arrow (l : List Char) :
    hasArrow l = false → ∀ acc, splitArrowAux acc l = [acc.reverse ++ l] := by
  induction l with
  | nil => intro _ acc; simp [splitArrowAux]
  | cons c cs ih =>
    intro h acc
    rw [hasArrow, Bool.or_eq_false_iff] at h
    cases cs with
    | nil => simp [splitArrowAux]
    | cons c2 cs2 =>
      rw [splitArrowAux, if_neg ?hcond]
      case hcond =>
        have h1 := h.1
        simp only [List.head?_cons, Option.some.injEq, Bool.and_eq_false_iff,
          decide_eq_false_iff_not] at h1
        simp only [Bool.and_eq_true, decide_eq_true_eq, not_and]
        intro hc hc2
        rcases h1 with h1 | h1 <;> exact h1 (by assumption)
      rw [ih h.2 (c :: acc)]
      simp

theorem splitArrowAux_arrow (a : List Char) :
    hasArrow a = false → ∀ acc rest,
      splitArrowAux acc (a ++ '=' :: '>' :: rest) =
        (acc.reverse ++ a) :: splitArrowAux [] rest := by
  induction a with
  | nil =>
    intro _ acc rest
    rw [List.nil_append, splitArrowAux, if_pos (by decide)]
    simp
  | cons c cs ih =>
    intro h acc rest
    rw [hasArrow, Bool.or_eq_false_iff] at h
    cases cs with
    | nil =>
      rw [List.cons_append, List.nil_append, splitArrowAux, if_neg (by simp),
        splitArrowAux, if_pos (by decide)]
      simp
    | cons c2 cs2 =>
      rw [List.cons_append, List.cons_append, splitArrowAux, if_neg ?hcond]
      case hcond =>
        have h1 := h.1
        simp only [List.head?_cons, Option.some.injEq, Bool.and_eq_false_iff,
          decide_eq_false_iff_not] at h1
        simp only [Bool.and_eq_true, decide_eq_true_eq, not_and]
        intro hc hc2
        rcases h1 with h1 | h1 <;> exact h1 (by assumption)
      rw [show (c2 :: (cs2 ++ '=' :: '>' :: rest)) = ((c2 :: cs2) ++ '=' :: '>' :: rest)
        from rfl, ih h.2 (c :: acc) rest]
      simp

theorem hasArrow_append_single (a : List Char) (c : Char) (hc : ¬c = '>') :
    hasArrow a = false → hasArrow (a ++ [c]) = false := by
  induction a with
  | nil =>
    intro _
    simp [hasArrow]
  | cons d ds ih =>
    intro h
    rw [hasArrow, Bool.or_eq_false_iff] at h
    rw [List.cons_append, hasArrow, Bool.or_eq_false_iff]
    refine ⟨?_, ih h.2⟩
    cases ds with
    | nil => simp [hc]
    | cons e es => simpa using h.1

theorem head_not_ws_of_dropWhile_fix (c : Char) (k : List Char)
    (h : (c :: k).dropWhile isWsC = c :: k) : isWsC c = false := by
  by_cases hw : isWsC c = true
  · rw [List.dropWhile_cons, if_pos hw] at h
    have h1 := length_dropWhile_le isWsC k
    have h2 := congrArg List.length h
    simp at h2
    omega
  · exact Bool.eq_false_iff.mpr hw

theorem dropT_append (a b : List Char) :
    dropT (a ++ b) = if dropT b = [] then dropT a else a ++ dropT b := by
  by_cases hb : dropT b = []
  · rw [if_pos hb]
    unfold dropT at hb ⊢
    have hb2 : b.reverse.dropWhile isWsC = [] := by
      rw [← List.reverse_eq_nil_iff]
      exact hb
    rw [List.reverse_append, List.dropWhile_append, if_pos (by simp [hb2])]
  · rw [if_neg hb]
    unfold dropT at hb ⊢
    have hb2 : ¬(b.reverse.dropWhile isWsC).isEmpty = true := by
      rw [List.isEmpty_iff]
      intro hx
      exact hb (by rw [hx]; rfl)
    rw [List.reverse_append, List.dropWhile_append, if_neg hb2]
    rw [List.reverse_append, List.reverse_reverse]

theorem trim_kw_space (kw : List Char) (hne : kw ≠ [])
    (hlead : kw.dropWhile isWsC = kw) (htrail : dropT kw = kw) :
    trimL (kw ++ [' ']) = kw := by
  obtain ⟨c, k, rfl⟩ : ∃ c k, kw = c :: k := by
    cases kw with
    | nil => exact absurd rfl hne
    | cons c k => exact ⟨c, k, rfl⟩
  have hc : isWsC c = false := head_not_ws_of_dropWhile_fix c k hlead
  unfold trimL
  rw [List.cons_append, List.dropWhile_cons, if_neg (by simp [hc]), ← List.cons_append]
  rw [dropT_append, if_pos (by decide)]
  exact htrail

theorem trim_newLine (kw cat : List Char) (hne : kw ≠ [])
    (hlead : kw.dropWhile isWsC = kw) :
    trimL (kw ++ ' ' :: '=' :: '>' :: ' ' :: cat) =
      kw ++ ' ' :: '=' :: '>' :: dropT (' ' :: cat) := by
  obtain ⟨c, k, rfl⟩ : ∃ c k, kw = c :: k := by
    cases kw with
    | nil => exact absurd rfl hne
    | cons c k => exact ⟨c, k, rfl⟩
  have hc : isWsC c = false := head_not_ws_of_dropWhile_fix c k hlead
  unfold trimL
  rw [List.cons_append, List.dropWhile_cons, if_neg (by simp [hc]), ← List.cons_append]
  rw [show ((c :: k) ++ ' ' :: '=' :: '>' :: ' ' :: cat) =
    (((c :: k) ++ [' ', '=', '>']) ++ (' ' :: cat)) by simp]
  rw [dropT_append]
  by_cases hu : dropT (' ' :: cat) = []
  · rw [if_pos hu, hu, dropT_append, if_neg (by decide),
      show dropT [' ', '=', '>'] = [' ', '=', '>'] from by decide]
  · rw [if_neg hu]
    simp

theorem parsedKw_newLine (keywordUpper categoryUpper : String)
    (hne : keywordUpper.data ≠ [])
    (hlead : keywordUpper.data.dropWhile isWsC = keywordUpper.data)
    (htrail : dropT keywordUpper.data = keywordUpper.data)
    (hhash : startsHash keywordUpper.data = false)
    (harrow : hasArrow keywordUpper.data = false) :
    parsedKw (newLineOf keywordUpper categoryUpper) =
      some (asciiLowerL keywordUpper.data) := by
  unfold parsedKw newLineOf
  rw [trim_newLine _ _ hne hlead]
  obtain ⟨c, k, hkw⟩ : ∃ c k, keywordUpper.data = c :: k := by
    cases hx : keywordUpper.data with
    | nil => exact absurd hx hne
    | cons c k => exact ⟨c, k, rfl⟩
  rw [if_neg (by rw [hkw]; simp)]
  rw [if_neg (by rw [hkw]; rw [hkw] at hhash; simpa [startsHash] using hhash)]
  rw [show (keywordUpper.data ++ ' ' :: '=' :: '>' :: dropT (' ' :: categoryUpper.data)) =
    ((keywordUpper.data ++ [' ']) ++ '=' :: '>' :: dropT (' ' :: categoryUpper.data))
    by simp]
  unfold splitArrow
  rw [splitArrowAux_arrow (keywordUpper.data ++ [' '])
    (hasArrow_append_single _ _ (by decide) harrow) [] _]
  obtain ⟨q, qs, hq⟩ : ∃ q qs,
      splitArrowAux [] (dropT (' ' :: categoryUpper.data)) = q :: qs := by
    cases hsa : splitArrowAux [] (dropT (' ' :: categoryUpper.data)) with
    | nil => exact absurd hsa (splitArrowAux_ne_nil _ [])
    | cons q qs => exact ⟨q, qs, rfl⟩
  rw [hq]
  show some (asciiLowerL (trimL (List.reverse [] ++ (keywordUpper.data ++ [' '])))) = _
  rw [List.reverse_nil, List.nil_append, trim_kw_space _ hne hlead htrail]

theorem upsertScan_self (kwL nl : List Char) (hnl : parsedKw nl = some kwL) :
    ∀ pre post, (∀ l ∈ pre, parsedKw l ≠ some kwL) →
      upsertScan kwL nl (pre ++ nl :: post) = some (pre ++ nl :: post) := by
  intro pre
  induction pre with
  | nil =>
    intro post _
    rw [List.nil_append, upsertScan, if_pos hnl]
  | cons l ls ih =>
    intro post hpre
    rw [List.cons_append, upsertScan, if_neg (hpre l (by simp))]
    rw [ih post (fun x hx => hpre x (by simp [hx]))]
    rfl

theorem upsertScan_none (kwL nl : List Char) :
    ∀ ls, upsertScan kwL nl ls = none → ∀ l ∈ ls, parsedKw l ≠ some kwL := by
  intro ls
  induction ls with
  | nil => intro _ l hl; simp at hl
  | cons l0 ls2 ih =>
    intro h l hl
    rw [upsertScan] at h
    by_cases h0 : parsedKw l0 = some kwL
    · rw [if_pos h0] at h
      exact absurd h (by simp)
    · rw [if_neg h0] at h
      rcases List.mem_cons.mp hl with rfl | hmem
      · exact h0
      · exact ih (Option.map_eq_none'.mp h) l hmem

theorem upsertScan_found (kwL nl : List Char) :
    ∀ ls ls1, upsertScan kwL nl ls = some ls1 →
      ∃ pre l0 post, ls = pre ++ l0 :: post ∧ ls1 = pre ++ nl :: post ∧
        (∀ l ∈ pre, parsedKw l ≠ some kwL) ∧ parsedKw l0 = some kwL := by
  intro ls
  induction ls with
  | nil => intro ls1 h; simp [upsertScan] at h
  | cons l0 ls2 ih =>
    intro ls1 h
    rw [upsertScan] at h
    by_cases h0 : parsedKw l0 = some kwL
    · rw [if_pos h0] at h
      obtain rfl : nl :: ls2 = ls1 := by simpa using h
      exact ⟨[], l0, ls2, rfl, rfl, by simp, h0⟩
    · rw [if_neg h0] at h
      obtain ⟨ls3, h3, rfl⟩ := Option.map_eq_some'.mp h
      obtain ⟨pre, lm, post, rfl, rfl, hpre, hm⟩ := ih ls3 h3
      refine ⟨l0 :: pre, lm, post, rfl, rfl, ?_, hm⟩
      intro l hl
      rcases List.mem_cons.mp hl with rfl | hmem
      · exact h0
      · exact hpre l hmem

theorem addOrUpdate_found (text kw cat : String) (hguard : ¬(kw = "" ∨ cat = ""))
    (ls1 : List (List Char))
    (h : upsertScan (asciiLowerL kw.data) (newLineOf kw cat) (jsSplitLines text.data) =
      some ls1) :
    addOrUpdateRuleLine text kw cat = ⟨joinNl ls1⟩ := by
  unfold addOrUpdateRuleLine
  rw [if_neg hguard]
  dsimp only
  rw [h]

theorem addOrUpdate_append (text kw cat : String) (hguard : ¬(kw = "" ∨ cat = ""))
    (h : upsertScan (asciiLowerL kw.data) (newLineOf kw cat) (jsSplitLines text.data) =
      none) :
    addOrUpdateRuleLine text kw cat =
      ⟨joinNl (jsSplitLines text.data ++ [newLineOf kw cat])⟩ := by
  unfold addOrUpdateRuleLine
  rw [if_neg hguard]
  dsimp only
  rw [h]

/-- C9 counterexample: the claim quantifies over every keyword, but with
keyword `#A` (whose canonical line parses as a comment) each application
appends a new line, so the first application's output is not a fixed
point. -/
theorem C9_counterexample :
    addOrUpdateRuleLine (addOrUpdateRuleLine "" "#A" "B") "#A" "B" ≠
      addOrUpdateRuleLine "" "#A" "B" := by decide

/-- C9 (amended): upsert is idempotent after the first application for
every rules text containing no carriage return and every keyword that is
nonempty without leading/trailing whitespace, does not start with `#`,
contains no `=>` and no CR/LF, with a category containing no CR/LF (a
keyword whose canonical line `KEYWORD => CATEGORY` would not parse back to
the same keyword — e.g. one starting with `#` — is re-appended on every
application instead). -/
theorem C9_upsert_idempotent (text keywordUpper categoryUpper : String)
    (hlead : keywordUpper.data.dropWhile isWsC = keywordUpper.data)
    (htrail : dropT keywordUpper.data = keywordUpper.data)
    (hhash : startsHash keywordUpper.data = false)
    (harrow : hasArrow keywordUpper.data = false)
    (hknl : '\n' ∉ keywordUpper.data) (hkcr : '\r' ∉ keywordUpper.data)
    (hcnl : '\n' ∉ categoryUpper.data) (hccr : '\r' ∉ categoryUpper.data)
    (htcr : '\r' ∉ text.data) :
    addOrUpdateRuleLine (addOrUpdateRuleLine text keywordUpper categoryUpper)
      keywordUpper categoryUpper =
      addOrUpdateRuleLine text keywordUpper categoryUpper := by
  by_cases hguard : keywordUpper = "" ∨ categoryUpper = ""
  · have h0 : addOrUpdateRuleLine text keywordUpper categoryUpper = text := by
      unfold addOrUpdateRuleLine
      rw [if_pos hguard]
    rw [h0]
    exact h0
  · have hkne : keywordUpper.data ≠ [] := by
      intro hd
      exact (not_or.mp hguard).1 (String.ext hd)
    have hparsed : parsedKw (newLineOf keywordUpper categoryUpper) =
        some (asciiLowerL keywordUpper.data) :=
      parsedKw_newLine keywordUpper categoryUpper hkne hlead htrail hhash harrow
    have hnlchars : '\n' ∉ newLineOf keywordUpper categoryUpper ∧
        '\r' ∉ newLineOf keywordUpper categoryUpper := by
      constructor <;>
      · intro hmem
        unfold newLineOf at hmem
        rcases List.mem_append.mp hmem with hx | hx
        · first
          | exact hknl hx
          | exact hkcr hx
        · rcases List.mem_cons.mp hx with hx | hx
          · simp at hx
          · rcases List.mem_cons.mp hx with hx | hx
            · simp at hx
            · rcases List.mem_cons.mp hx with hx | hx
              · simp at hx
              · rcases List.mem_cons.mp hx with hx | hx
                · simp at hx
                · first
                  | exact hcnl hx
                  | exact hccr hx
    have hlchars : ∀ p ∈ jsSplitLines text.data, '\n' ∉ p ∧ '\r' ∉ p :=
      jsSplitLines_chars text.data htcr
    cases hscan : upsertScan (asciiLowerL keywordUpper.data)
        (newLineOf keywordUpper categoryUpper) (jsSplitLines text.data) with
    | none =>
      have h1 := addOrUpdate_append text keywordUpper categoryUpper hguard hscan
      rw [h1]
      have hstab : jsSplitLines (joinNl (jsSplitLines text.data ++
          [newLineOf keywordUpper categoryUpper])) =
          jsSplitLines text.data ++ [newLineOf keywordUpper categoryUpper] := by
        apply jsSplitLines_joinNl
        · simp
        · intro p hp
          rcases List.mem_append.mp hp with hx | hx
          · exact hlchars p hx
          · rw [List.mem_singleton.mp hx]
            exact hnlchars
      apply addOrUpdate_found _ _ _ hguard
      rw [show (⟨joinNl (jsSplitLines text.data ++
          [newLineOf keywordUpper categoryUpper])⟩ : String).data =
        joinNl (jsSplitLines text.data ++ [newLineOf keywordUpper categoryUpper])
        from rfl]
      rw [hstab]
      have hself := upsertScan_self (asciiLowerL keywordUpper.data)
        (newLineOf keywordUpper categoryUpper) hparsed (jsSplitLines text.data) []
        (upsertScan_none _ _ _ hscan)
      simpa using hself
    | some ls1 =>
      have h1 := addOrUpdate_found text keywordUpper categoryUpper hguard ls1 hscan
      rw [h1]
      obtain ⟨pre, l0, post, hdecomp, rfl, hpre, _⟩ :=
        upsertScan_found _ _ (jsSplitLines text.data) ls1 hscan
      have hstab : jsSplitLines (joinNl (pre ++
          newLineOf keywordUpper categoryUpper :: post)) =
          pre ++ newLineOf keywordUpper categoryUpper :: post := by
        apply jsSplitLines_joinNl
        · simp
        · intro p hp
          rcases List.mem_append.mp hp with hx | hx
          · exact hlchars p (by rw [hdecomp]; exact List.mem_append_left _ hx)
          · rcases List.mem_cons.mp hx with rfl | hx
            · exact hnlchars
            · exact hlchars p (by rw [hdecomp]; exact List.mem_append_right _ (by simp [hx]))
      apply addOrUpdate_found _ _ _ hguard
      rw [show (⟨joinNl (pre ++ newLineOf keywordUpper categoryUpper :: post)⟩ :
        String).data = joinNl (pre ++ newLineOf keywordUpper categoryUpper :: post)
        from rfl]
      rw [hstab]
      exact upsertScan_self (asciiLowerL keywordUpper.data)
        (newLineOf keywordUpper categoryUpper) hparsed pre post hpre

/-- C9 witness: upserting `FOO => NEW` twice into a text that already has a
`foo` rule (matched case-insensitively) changes nothing the second time;
likewise for a text without a `foo` rule (append case). -/
theorem C9_witness :
    addOrUpdateRuleLine (addOrUpdateRuleLine "# r\nfoo => OLD" "FOO" "NEW") "FOO" "NEW" =
      addOrUpdateRuleLine "# r\nfoo => OLD" "FOO" "NEW" ∧
    addOrUpdateRuleLine (addOrUpdateRuleLine "# r" "FOO" "NEW") "FOO" "NEW" =
      addOrUpdateRuleLine "# r" "FOO" "NEW" := by
  constructor
  · exact C9_upsert_idempotent "# r\nfoo => OLD" "FOO" "NEW" (by decide) (by decide)
      (by decide) (by decide) (by decide) (by decide) (by decide) (by decide) (by decide)
  · exact C9_upsert_idempotent "# r" "FOO" "NEW" (by decide) (by decide)
      (by decide) (by decide) (by decide) (by decide) (by decide) (by decide) (by decide)

end Spendlite
